import Mathlib

/-!
Verification of the master-programs consultant bot core
(`src/bot/rag.py`, `src/bot/recommender.py`, `src/bot/handlers.py`,
`src/bot/generator.py`).

Python strings are modelled as Lean `String`s over their `List Char` data;
Python `float` similarity scores are modelled exactly as rationals (`ℚ`).
The helpers below reproduce the Python string primitives used by the bot
(`str.lower`, `str.strip`, substring test `in`, `str.split`, `str.join`,
`str.replace`, `str.endswith`, `str.split()` word splitting), restricted to
the character data the bot handles (ASCII plus Cyrillic).

The external dependency `rapidfuzz` is modelled from its documented
semantics: `fuzz.ratio` is the normalized indel similarity
`200 * lcs(a, b) / (|a| + |b|)`, `fuzz.partial_ratio` is the best
`fuzz.ratio` of the shorter string against a contiguous substring of the
longer one, and `fuzz.token_set_ratio` is the classical maximum of ratios
over the sorted token-set combinations.  Python's stable `list.sort` is
modelled by a stable insertion sort (stable sorting by a key is a unique
function, so any stable sort is extensionally faithful).
-/

set_option maxRecDepth 20000

/-- Lowercase one character the way Python `str.lower` does on the data this
bot handles: ASCII `A`–`Z`, Cyrillic `А`–`Я` and `Ё`. -/
def loChar (c : Char) : Char :=
  if 'A' ≤ c ∧ c ≤ 'Z' then Char.ofNat (c.toNat + 32)
  else if 'А' ≤ c ∧ c ≤ 'Я' then Char.ofNat (c.toNat + 32)
  else if c = 'Ё' then 'ё'
  else c

/-- Python `s.lower()`. -/
def lowerS (s : String) : String := ⟨s.data.map loChar⟩

/-- Strip leading and trailing whitespace from character data. -/
def stripD (l : List Char) : List Char :=
  ((l.dropWhile Char.isWhitespace).reverse.dropWhile Char.isWhitespace).reverse

/-- Python `s.strip()`. -/
def strip (s : String) : String := ⟨stripD s.data⟩

/-- `leadEq l pat` : `pat` is a leading segment of `l` (character-wise). -/
def leadEq : List Char → List Char → Bool
  | _, [] => true
  | [], _ :: _ => false
  | c :: cs, d :: ds => c == d && leadEq cs ds

/-- `hasSeg pat l` : `pat` occurs as a contiguous segment of `l`. -/
def hasSeg (pat : List Char) : List Char → Bool
  | [] => pat.isEmpty
  | c :: cs => leadEq (c :: cs) pat || hasSeg pat cs

/-- Python `needle in hay` for strings. -/
def inS (needle hay : String) : Bool := hasSeg needle.data hay.data

/-- Python `s.endswith(sfx)`. -/
def endsS (s sfx : String) : Bool := leadEq s.data.reverse sfx.data.reverse

/-- Characters before the first occurrence of `pat` (the whole list when
`pat` does not occur); for a nonempty `pat` this is Python
`s.split(pat)[0]`. -/
def beforeSeg (pat : List Char) : List Char → List Char
  | [] => []
  | c :: cs => if leadEq (c :: cs) pat then [] else c :: beforeSeg pat cs

/-- Python `s.split(sep)` for a one-character separator. -/
def splitChD (sep : Char) : List Char → List (List Char)
  | [] => [[]]
  | c :: cs =>
    if c = sep then [] :: splitChD sep cs
    else
      match splitChD sep cs with
      | [] => [[c]]
      | p :: ps => (c :: p) :: ps

/-- Python `sep.join(pieces)` on character data. -/
def joinD (sep : List Char) : List (List Char) → List Char
  | [] => []
  | [x] => x
  | x :: y :: rest => x ++ sep ++ joinD sep (y :: rest)

/-- Delete every (non-overlapping, left-to-right) occurrence of `pat` from
the list; the `Nat` argument counts characters of a recognized occurrence
still to be consumed (start it at `0`).  For a nonempty pattern this is
Python `s.replace(pat, '')`. -/
def delGo (pat : List Char) : List Char → Nat → List Char
  | [], _ => []
  | _ :: cs, k + 1 => delGo pat cs k
  | c :: cs, 0 =>
    if leadEq (c :: cs) pat then delGo pat cs (pat.length - 1)
    else c :: delGo pat cs 0

/-- Python `s.replace(pat, '')` for nonempty `pat`. -/
def replDel (s pat : String) : String := ⟨delGo pat.data s.data 0⟩

/-- Word splitting of Python `s.split()` (split on whitespace runs, no empty
pieces); `acc` is the current word, reversed. -/
def wordsAux : List Char → List Char → List (List Char)
  | [], acc => if acc.isEmpty then [] else [acc.reverse]
  | c :: cs, acc =>
    if c.isWhitespace then
      if acc.isEmpty then wordsAux cs [] else acc.reverse :: wordsAux cs []
    else wordsAux cs (c :: acc)

/-- Python `s.split()`. -/
def pwords (s : String) : List String := (wordsAux s.data []).map fun l => ⟨l⟩

/-- Lexicographic strict order on character data (Python string `<`). -/
def chLt : List Char → List Char → Bool
  | [], [] => false
  | [], _ :: _ => true
  | _ :: _, [] => false
  | a :: as, b :: bs => a < b || (a == b && chLt as bs)

/-- Stable insertion of `x` into `l` under the weak order `le`:
`x` is placed before the first element `y` with `le x y`. -/
def insertLe (le : α → α → Bool) (x : α) : List α → List α
  | [] => [x]
  | y :: ys => if le x y then x :: y :: ys else y :: insertLe le x ys

/-- Stable sort for the weak order `le`; models Python's stable `list.sort`
(for a total preorder a stable sort is a unique function, so this is
extensionally the sort the bot performs). -/
def isortLe (le : α → α → Bool) : List α → List α
  | [] => []
  | x :: xs => insertLe le x (isortLe le xs)

/-- One step of the LCS recursion: `rest bs'` is the LCS value of the tail
of the first string against `bs'`.  Stated this way so that `lcs` below is
structurally recursive and computes by kernel reduction. -/
def lcsStep (a : Char) (rest : List Char → Nat) : List Char → Nat
  | [] => 0
  | b :: bs => if a = b then rest bs + 1 else max (lcsStep a rest bs) (rest (b :: bs))

/-- Length of the longest common subsequence of two character lists. -/
def lcs : List Char → List Char → Nat
  | [], _ => 0
  | a :: as, bs => lcsStep a (lcs as) bs

/-- Executable multiset-intersection cardinality. -/
def capLcs (a b : List Char) : Nat := (a.bagInter b).length

/-- Model of `rapidfuzz.fuzz.ratio`: the normalized indel similarity on the
0–100 scale, `100 * (1 - dist/(|a|+|b|)) = 200 * lcs(a,b) / (|a|+|b|)`
(`100` when both strings are empty). -/
def ratioQ (a b : List Char) : ℚ :=
  if a.length + b.length = 0 then 100
  else (200 * lcs a b : ℚ) / ((a.length + b.length : Nat) : ℚ)

/-- Every contiguous segment of `t` (as `take`-of-`drop` windows; duplicates
are harmless because only the maximum ratio over them is used). -/
def subSegs (t : List Char) : List (List Char) :=
  (List.range (t.length + 1)).flatMap fun i =>
    (List.range (t.length + 1 - i)).map fun n => (t.drop i).take n

/-- Model of `rapidfuzz.fuzz.partial_ratio`: the `fuzz.ratio` of the optimal
alignment of the shorter string against a contiguous substring of the longer
string. -/
def partialRatioQ (a b : String) : ℚ :=
  let x := a.data
  let y := b.data
  let p := if x.length ≤ y.length then (x, y) else (y, x)
  ((subSegs p.2).map (ratioQ p.1)).foldl max 0

/-- Sorted deduplicated word tokens of a string (Python
`sorted(set(s.split()))`). -/
def tokensOf (s : String) : List String :=
  isortLe (fun a b => !chLt b.data a.data) (pwords s).dedup

/-- Model of `rapidfuzz.fuzz.token_set_ratio`: the maximum `fuzz.ratio`
among the pairings of the sorted token intersection with the two sorted
token unions. -/
def token_set_ratio (a b : String) : ℚ :=
  let ta := tokensOf a
  let tb := tokensOf b
  let sect := ta.filter (· ∈ tb)
  let d1 := ta.filter (· ∉ tb)
  let d2 := tb.filter (· ∉ ta)
  let s0 := joinD [' '] (sect.map String.data)
  let s1 := joinD [' '] ((sect ++ d1).map String.data)
  let s2 := joinD [' '] ((sect ++ d2).map String.data)
  max (ratioQ s0 s1) (max (ratioQ s0 s2) (ratioQ s1 s2))

/-! ### `src/bot/recommender.py` -/

/-- A curriculum entry of a program; only the `name` field is consulted by
the recommender (`c.get("name")`, absent key modelled as `none`). -/
structure CourseEntry where
  name : Option String
deriving DecidableEq

/-- A program record; the recommender consults only the `curriculum` list
(`program.get("curriculum", [])`). -/
structure Program where
  curriculum : List CourseEntry
deriving DecidableEq

/-- `_HEADING_KEYWORDS` of `recommender.py`. -/
def HEADING_KEYWORDS : List String :=
  ["учебный план", "наименование модулей", "блок", "обязательн", "пул выборных",
   "аттестац", "практик", "индивидуальная профессиональная подготовка"]

/-- `_is_heading` of `recommender.py`. -/
def is_heading (name : String) : Bool :=
  let nl := strip (lowerS name)
  if nl = "" then true
  else if HEADING_KEYWORDS.any fun k => inS k nl then true
  else if endsS nl "семестр" || inS " семестр" nl then true
  else if 80 < nl.length ∧ inS "(" nl = false ∧ inS "," nl = false then true
  else false

/-- `_extract_course_names` of `recommender.py`. -/
def extract_course_names (program : Program) : List String :=
  (program.curriculum.map fun c => strip (c.name.getD "")).filter
    fun nm => nm ≠ "" ∧ is_heading nm = false

/-- `Elective` of `recommender.py`; the score is the exact rational value of
the Python float computation `max(partial_ratio, token_set_ratio) / 100`. -/
structure Elective where
  name : String
  score : ℚ
deriving DecidableEq

/-- The descending-by-score weak order used by
`scored.sort(key=lambda e: e.score, reverse=True)`. -/
def electiveLe (e1 e2 : Elective) : Bool := decide (e2.score ≤ e1.score)

/-- `recommend_electives` of `recommender.py`. -/
def recommend_electives (background : String) (program : Program) (top_k : Nat) :
    List Elective :=
  let names := extract_course_names program
  if names = [] then []
  else
    let query := strip (lowerS background)
    let scored := names.map fun name =>
      { name := name
        score := max (partialRatioQ query (lowerS name))
            (token_set_ratio query (lowerS name)) / 100 : Elective }
    (isortLe electiveLe scored).take top_k

/-- `score_program` of `recommender.py`: aggregate score and top-k electives. -/
def score_program (background : String) (program : Program) (top_k : Nat) :
    ℚ × List Elective :=
  let recs := recommend_electives background program top_k
  if recs = [] then (0, [])
  else ((recs.map Elective.score).sum / (recs.length : ℚ), recs)

/-! ### `src/bot/rag.py` -/

/-- The metadata keys of a document that the bot consults
(`program_title`, `program_url`, `section`); an absent key is `none`,
matching Python's `dict.get`. -/
structure DocMeta where
  program_title : Option String
  program_url : Option String
  sectionKey : Option String
deriving DecidableEq

/-- `Doc` of `rag.py`. -/
structure Doc where
  id : String
  text : String
  meta : DocMeta
deriving DecidableEq

/-- A retrieval result: a document together with its cosine similarity,
modelled exactly as a rational. -/
abbrev ScoredDoc := Doc × ℚ

/-- Python truthiness of an optional string (`None` and `""` are falsy). -/
def truthyO (o : Option String) : Bool := o.getD "" ≠ ""

/-- `ALLOWED_KEYWORDS` of `rag.py`. -/
def ALLOWED_KEYWORDS : List String :=
  ["магистратура", "учебный план", "дисциплины", "курсы", "семестр", "предметы",
   "профиль", "поступление", "программа", "AI", "ИИ", "AI Product", "аспирантура",
   "стоимость", "язык обучения", "контакты", "факультет", "срок обучения", "цена"]

/-- `PROGRAM_ALIASES` of `rag.py`. -/
def PROGRAM_ALIASES : List String :=
  ["ИИ", "искусственный интеллект", "AI", "AI Product", "проектирование AI-продуктов"]

/-- The keyword-hit signal of `is_relevant`: a case-insensitive substring
match of the query against the fixed vocabulary. -/
def rel_key_hit (question : String) : Bool :=
  ALLOWED_KEYWORDS.any fun k => inS (lowerS k) (lowerS question)

/-- `" ".join(PROGRAM_ALIASES).lower()` as used by `is_relevant`. -/
def aliases_joined : String := lowerS ⟨joinD [' '] (PROGRAM_ALIASES.map String.data)⟩

/-- The alias fuzzy-hit signal of `is_relevant`:
`fuzz.partial_ratio(aliases, q) > 70`. -/
def rel_alias_hit (question : String) : Bool :=
  decide (70 < partialRatioQ aliases_joined (lowerS question))

/-- The retrieval-confidence signal of `is_relevant`:
some candidate has similarity above `0.15`. -/
def rel_retr_hit (retrieved : List ScoredDoc) : Bool :=
  retrieved.any fun p => decide ((3 : ℚ) / 20 < p.2)

/-- `is_relevant` of `rag.py`: the OR of the three signals. -/
def is_relevant (question : String) (retrieved : List ScoredDoc) : Bool :=
  rel_key_hit question || rel_alias_hit question || rel_retr_hit retrieved

/-- `_extract_program_info` of `rag.py`: title/url from the first document
carrying a truthy program title or url. -/
def extract_program_info (docs : List Doc) : Option String × Option String :=
  match docs.find? (fun d => truthyO d.meta.program_title || truthyO d.meta.program_url) with
  | some d => (d.meta.program_title, d.meta.program_url)
  | none => (none, none)

/-- The structural keywords that `_collect_course_names` skips. -/
def COURSE_SKIP_KEYWORDS : List String :=
  ["учебный план", "наименование модулей", "блок 1", "обязательные дисциплины", "пул выборных"]

/-- The loop of `_collect_course_names`: walk the documents, keep distinct
non-trivial course-section texts, stop once `limit` names are collected. -/
def ccnGo : List Doc → List String → Nat → List String
  | [], acc, _ => acc
  | d :: ds, acc, limit =>
    if d.meta.sectionKey.getD "" ≠ "course" then ccnGo ds acc limit
    else
      let txt := strip d.text
      if txt = "" ∨ txt.length < 2 then ccnGo ds acc limit
      else if COURSE_SKIP_KEYWORDS.any fun h => inS h (lowerS txt) then ccnGo ds acc limit
      else
        let acc2 := if txt ∈ acc then acc else acc ++ [txt]
        if limit ≤ acc2.length then acc2 else ccnGo ds acc2 limit

/-- `_collect_course_names` of `rag.py`. -/
def collect_course_names (docs : List Doc) (limit : Nat) : List String :=
  ccnGo docs [] limit

/-- The keyword list of `_looks_like_teacher_question`. -/
def TEACHER_WORDS : List String :=
  ["кто вед", "кто препода", "преподавател", "лектор", "преподы", "кто читает"]

/-- `_looks_like_teacher_question` of `rag.py`. -/
def looks_like_teacher_question (q : String) : Bool :=
  TEACHER_WORDS.any fun k => inS k (lowerS q)

/-- The keyword list of `_looks_like_cost_question`. -/
def RAG_COST_WORDS : List String :=
  ["сколько стоит", "стоимост", "цена", "сколько в год", "платн", "руб", "₽"]

/-- `_looks_like_cost_question` of `rag.py`. -/
def looks_like_cost_question (q : String) : Bool :=
  RAG_COST_WORDS.any fun k => inS k (lowerS q)

/-- `_find_facts` of `rag.py`: texts of "facts"-section documents with
truthy text. -/
def find_facts (docs : List Doc) : List String :=
  docs.filterMap fun d =>
    if d.meta.sectionKey = some "facts" ∧ d.text ≠ "" then some d.text else none

/-- The monetary cues searched for in a facts line by the cost path. -/
def MONEY_WORDS : List String := ["стоимость", "цена", "руб", "₽"]

/-- The cost-intent branch of `build_answer` (returns `none` when the branch
falls through). -/
def cost_answer (question : String) (docs : List Doc) (tt tu : Option String) :
    Option String :=
  if looks_like_cost_question question then
    match (find_facts docs).find? (fun f => MONEY_WORDS.any fun w => inS w (lowerS f)) with
    | some fact_line =>
      let value := strip (replDel ⟨beforeSeg [';'] fact_line.data⟩ "Стоимость:")
      if truthyO tt ∧ truthyO tu then
        some ("Стоимость обучения по программе «" ++ tt.getD "" ++ "»: " ++ value
          ++ ". Подробнее — " ++ tu.getD "" ++ ".")
      else if truthyO tt then
        some ("Стоимость обучения по программе «" ++ tt.getD "" ++ "»: " ++ value ++ ".")
      else some fact_line
    | none => none
  else none

/-- The staffing-intent branch of `build_answer`. -/
def teacher_answer (question : String) (docs : List Doc) (tt tu : Option String) :
    Option String :=
  if looks_like_teacher_question question then
    if docs.any (fun d => inS "препода" (lowerS d.text) || inS "лектор" (lowerS d.text)) then
      none
    else
      let base := "В открытых материалах программы нет фиксированного списка преподавателей — он может меняться по семестрам."
      if truthyO tt ∧ truthyO tu then
        some (base ++ " Актуальную информацию обычно публикуют на странице программы «"
          ++ tt.getD "" ++ "»: " ++ tu.getD "" ++ ".")
      else if truthyO tt then
        some (base ++ " Попробуйте уточнить у учебного офиса программы «" ++ tt.getD "" ++ "».")
      else some (base ++ " Посмотрите страницу программы или уточните вопрос.")
  else none

/-- The course-listing branch of `build_answer`. -/
def course_answer (docs : List Doc) (tt tu : Option String) : Option String :=
  let names := collect_course_names docs 5
  if names = [] then none
  else
    let listed : String := ⟨joinD ", ".data (names.map String.data)⟩
    if truthyO tt ∧ truthyO tu then
      some ("По учебному плану программы «" ++ tt.getD ""
        ++ "» вам могут быть полезны дисциплины: " ++ listed
        ++ ". Полный список и описание — на странице программы: " ++ tu.getD "" ++ ".")
    else if truthyO tt then
      some ("В учебном плане «" ++ tt.getD "" ++ "» встречаются курсы: " ++ listed ++ ".")
    else some ("Среди подходящих курсов: " ++ listed ++ ".")

/-- The distinct non-empty stripped snippets of the first three retrieved
candidates, in first-seen order (the `lines` loop of `build_answer`). -/
def generic_lines (retrieved : List ScoredDoc) : List String :=
  (retrieved.take 3).foldl
    (fun lines p =>
      let snippet := strip p.1.text
      if snippet = "" ∨ snippet ∈ lines then lines else lines ++ [snippet])
    []

/-- The distinct non-empty stripped document texts of an entire candidate
list in first-seen order; stated from the specification's description of the
generic path ("the first 2 distinct non-empty document texts from the ranked
set"), for comparison with the loop the code actually runs. -/
def distinct_texts (retrieved : List ScoredDoc) : List String :=
  retrieved.foldl
    (fun lines p =>
      let snippet := strip p.1.text
      if snippet = "" ∨ snippet ∈ lines then lines else lines ++ [snippet])
    []

/-- The canned sentence returned for an empty retrieval set. -/
def NO_RESULT_MSG : String :=
  "К сожалению, я не нашёл ответа в материалах программ. Уточните вопрос."

/-- The canned sentence returned when no snippet survives the generic path. -/
def NO_COMPOSE_MSG : String :=
  "Не удалось сформировать ответ по материалам. Уточните вопрос."

/-- `build_answer` of `rag.py`. -/
def build_answer (question : String) (retrieved : List ScoredDoc) : String :=
  if retrieved = [] then NO_RESULT_MSG
  else
    let docs := (retrieved.map Prod.fst).filter fun d => d.text ≠ ""
    let ti := extract_program_info docs
    match cost_answer question docs ti.1 ti.2 with
    | some s => s
    | none =>
    match teacher_answer question docs ti.1 ti.2 with
    | some s => s
    | none =>
    match course_answer docs ti.1 ti.2 with
    | some s => s
    | none =>
      let lines := generic_lines retrieved
      if lines = [] then NO_COMPOSE_MSG
      else
        let body : String :=
          if 2 ≤ lines.length then ⟨joinD [' '] ((lines.take 2).map String.data)⟩
          else lines.headD ""
        if truthyO ti.1 ∧ truthyO ti.2 then
          "По материалам программы «" ++ ti.1.getD "" ++ "»: " ++ body
            ++ ". Подробнее — " ++ ti.2.getD "" ++ "."
        else if truthyO ti.1 then
          "По материалам «" ++ ti.1.getD "" ++ "»: " ++ body ++ "."
        else body

/-! ### `src/bot/handlers.py` (message_router re-ranking and facts injection) -/

/-- `_COST_WORDS` of `handlers.py`. -/
def COST_WORDS : List String :=
  ["сколько стоит", "стоимост", "цена", "сколько в год", "платн", "руб", "₽"]

/-- `any(w in text.lower() for w in _COST_WORDS)` of `message_router`. -/
def handlers_cost_intent (text : String) : Bool :=
  COST_WORDS.any fun w => inS w (lowerS text)

/-- `_prog_score` of `message_router`: 1 when the document belongs to the
currently selected program, else 0. -/
def prog_score (prog_name : String) (p : ScoredDoc) : Nat :=
  if p.1.meta.program_title = some prog_name then 1 else 0

/-- The weak order of
`pairs.sort(key=lambda p: (_prog_score(p), p[1]), reverse=True)`:
descending lexicographic comparison on (program match, similarity). -/
def pairLe (prog_name : String) (p q : ScoredDoc) : Bool :=
  decide (prog_score prog_name q < prog_score prog_name p ∨
    (prog_score prog_name p = prog_score prog_name q ∧ q.2 ≤ p.2))

/-- The caller-side re-ranking of search results in `message_router`. -/
def rank_pairs (prog_name : String) (pairs : List ScoredDoc) : List ScoredDoc :=
  isortLe (pairLe prog_name) pairs

/-- The facts-document lookup of the cost-intent injection in
`message_router`. -/
def find_fact_doc (all_docs : List Doc) (prog_name : String) : Option Doc :=
  all_docs.find? fun d =>
    d.meta.program_title = some prog_name ∧ d.meta.sectionKey = some "facts"

/-- The cost-intent facts injection of `message_router`: prepend the
program's facts document with score 1.0 when it is not already among the
candidates. -/
def inject_facts (text prog_name : String) (all_docs : List Doc)
    (pairs : List ScoredDoc) : List ScoredDoc :=
  if handlers_cost_intent text then
    match find_fact_doc all_docs prog_name with
    | some fact_doc =>
      if pairs.all (fun p => p.1 ≠ fact_doc) then (fact_doc, 1) :: pairs else pairs
    | none => pairs
  else pairs

/-- The candidate pipeline of `message_router`: re-rank, inject the facts
document for cost queries, truncate to the top 5. -/
def router_candidates (text prog_name : String) (all_docs : List Doc)
    (pairs : List ScoredDoc) : List ScoredDoc :=
  (inject_facts text prog_name all_docs (rank_pairs prog_name pairs)).take 5

/-! ### `src/bot/generator.py` (`TinyGenerator.generate` post-processing) -/

/-- The canned "no answer" sentence of `TinyGenerator.generate`. -/
def NO_ANSWER_MSG : String := "В материалах нет точного ответа."

/-- The text after the last occurrence of the marker (the marker `"Ответ:"`
has no self-overlap, so this is Python `text.split("Ответ:")[-1]`). -/
def after_last_marker (marker text : String) : String :=
  ⟨(beforeSeg marker.data.reverse text.data.reverse).reverse⟩

/-- The post-processing of `TinyGenerator.generate` applied to the decoded
model output: extract the text after the final `"Ответ:"` marker, trim to at
most two sentences, and replace an empty result with the canned sentence. -/
def generate_post (decoded : String) : String :=
  let ans := strip (after_last_marker "Ответ:" decoded)
  let parts := splitChD '.' ans.data
  let ans2 : String :=
    if 2 < parts.length then
      let j := stripD (joinD ['.'] (parts.take 2))
      if leadEq j.reverse ['.'] then ⟨j⟩ else ⟨j ++ ['.']⟩
    else ans
  if ans2 = "" then NO_ANSWER_MSG else ans2

/-! ### Concrete data used by witnesses and counterexamples -/

/-- A one-course program whose single curriculum entry is a real course
name (not a heading). -/
def exProgram : Program := ⟨[⟨some "Машинное обучение (углублённый курс)"⟩]⟩

/-- A course-section document whose text `_is_heading` classifies as a
heading (semester marker and the keyword `практик`) but which
`_collect_course_names` does not skip. -/
def exHeadingDoc : Doc := ⟨"c1", "Практика. 3 семестр", ⟨none, none, some "course"⟩⟩

/-- Documents with repeated and distinct texts for the generic path. -/
def exDocA1 : Doc := ⟨"a1", "Альфа", ⟨none, none, none⟩⟩

def exDocA2 : Doc := ⟨"a2", "Альфа", ⟨none, none, none⟩⟩

def exDocA3 : Doc := ⟨"a3", "Альфа", ⟨none, none, none⟩⟩

def exDocB : Doc := ⟨"b1", "Бета", ⟨none, none, none⟩⟩

/-- A candidate list whose first three texts coincide and whose second
distinct text appears only at position four. -/
def exRetrieved : List ScoredDoc :=
  [(exDocA1, 1), (exDocA2, 1), (exDocA3, 1), (exDocB, 1)]

/-- A candidate list with two distinct texts among the first three. -/
def exRetrieved2 : List ScoredDoc := [(exDocA1, 1), (exDocB, 1)]

/-- A facts document of the selected program `"ИИ"`. -/
def exFactDoc : Doc := ⟨"f1", "Стоимость: 599 000 ₽/год", ⟨some "ИИ", none, some "facts"⟩⟩

/-- A document of the selected program and one of another program. -/
def exDocSel : Doc := ⟨"d1", "текст о программе", ⟨some "ИИ", none, none⟩⟩

def exDocOther : Doc := ⟨"d2", "другой текст", ⟨some "AI Product", none, none⟩⟩

/-- Character data of the query of the relevance-gate claim. -/
def qCostD : List Char := "сколько стоит обучение".data

/-- Character data of the joined lowercased program aliases. -/
def aliasesD : List Char :=
  "ии искусственный интеллект ai ai product проектирование ai-продуктов".data

/-! ### Lemmas about the sorting model -/

theorem mem_insertLe {le : α → α → Bool} {x a : α} :
    ∀ {l : List α}, a ∈ insertLe le x l ↔ a = x ∨ a ∈ l := by
  intro l
  induction l with
  | nil => simp [insertLe]
  | cons y ys ih =>
    simp only [insertLe]
    split
    · simp
    · simp only [List.mem_cons, ih]
      tauto

theorem pairwise_insertLe {le : α → α → Bool}
    (trans : ∀ a b c, le a b = true → le b c = true → le a c = true)
    (total : ∀ a b, le a b || le b a) (x : α) :
    ∀ {l : List α}, l.Pairwise (fun a b => le a b = true) →
      (insertLe le x l).Pairwise (fun a b => le a b = true) := by
  intro l
  induction l with
  | nil => simp [insertLe]
  | cons y ys ih =>
    intro hp
    rw [List.pairwise_cons] at hp
    simp only [insertLe]
    split
    · rename_i hxy
      rw [List.pairwise_cons]
      refine ⟨?_, List.pairwise_cons.mpr hp⟩
      intro b hb
      rcases List.mem_cons.mp hb with rfl | hb
      · exact hxy
      · exact trans x y b hxy (hp.1 b hb)
    · rename_i hxy
      have hyx : le y x = true := by
        have := total x y
        rcases Bool.or_eq_true_iff.mp this with h | h
        · exact absurd h hxy
        · exact h
      rw [List.pairwise_cons]
      refine ⟨?_, ih hp.2⟩
      intro b hb
      rcases mem_insertLe.mp hb with rfl | hb
      · exact hyx
      · exact hp.1 b hb

theorem perm_insertLe {le : α → α → Bool} (x : α) :
    ∀ (l : List α), (insertLe le x l).Perm (x :: l) := by
  intro l
  induction l with
  | nil => simp [insertLe]
  | cons y ys ih =>
    simp only [insertLe]
    split
    · exact List.Perm.refl _
    · exact (List.Perm.cons y ih).trans (List.Perm.swap x y ys)

theorem perm_isortLe {le : α → α → Bool} :
    ∀ (l : List α), (isortLe le l).Perm l := by
  intro l
  induction l with
  | nil => simp [isortLe]
  | cons x xs ih =>
    exact (perm_insertLe x (isortLe le xs)).trans (List.Perm.cons x ih)

theorem pairwise_isortLe {le : α → α → Bool}
    (trans : ∀ a b c, le a b = true → le b c = true → le a c = true)
    (total : ∀ a b, le a b || le b a) :
    ∀ (l : List α), (isortLe le l).Pairwise (fun a b => le a b = true) := by
  intro l
  induction l with
  | nil => simp [isortLe]
  | cons x xs ih => exact pairwise_insertLe trans total x ih

theorem mem_isortLe {le : α → α → Bool} {a : α} {l : List α} :
    a ∈ isortLe le l ↔ a ∈ l :=
  (perm_isortLe l).mem_iff

/-! ### Lemmas about the LCS and ratio model -/

theorem lcs_nil (b : List Char) : lcs [] b = 0 := rfl

theorem lcs_cons_nil (a : Char) (as : List Char) : lcs (a :: as) [] = 0 := rfl

theorem lcs_cons_cons (a : Char) (as : List Char) (b : Char) (bs : List Char) :
    lcs (a :: as) (b :: bs) =
      if a = b then lcs as bs + 1 else max (lcs (a :: as) bs) (lcs as (b :: bs)) := rfl

theorem lcs_le_left : ∀ (a b : List Char), lcs a b ≤ a.length := by
  intro a
  induction a with
  | nil => intro b; simp [lcs]
  | cons x xs ih =>
    intro b
    induction b with
    | nil => simp [lcs, lcsStep]
    | cons y ys ihb =>
      rw [lcs_cons_cons]
      split
      · simpa using ih ys
      · exact max_le ihb ((ih (y :: ys)).trans (by simp))

theorem lcs_le_right : ∀ (a b : List Char), lcs a b ≤ b.length := by
  intro a
  induction a with
  | nil => intro b; simp [lcs]
  | cons x xs ih =>
    intro b
    induction b with
    | nil => simp [lcs, lcsStep]
    | cons y ys ihb =>
      rw [lcs_cons_cons]
      split
      · simpa [Nat.succ_le_succ_iff] using ih ys
      · exact max_le (ihb.trans (by simp)) (ih (y :: ys))

/-- Joint monotonicity facts, by strong induction on the total length:
appending a character in front of the second string cannot decrease the LCS,
and in front of the first string can increase it by at most one. -/
theorem lcs_mono_aux :
    ∀ (n : Nat) (a b : List Char), a.length + b.length ≤ n →
      (∀ c, lcs a b ≤ lcs a (c :: b)) ∧ (∀ x, lcs (x :: a) b ≤ lcs a b + 1) := by
  intro n
  induction n with
  | zero =>
    intro a b hab
    have ha : a = [] := by cases a <;> simp_all
    have hb : b = [] := by cases b <;> simp_all
    subst ha; subst hb
    constructor
    · intro c; simp [lcs, lcsStep]
    · intro x; simp [lcs, lcsStep]
  | succ n ih =>
    intro a b hab
    constructor
    · intro c
      cases a with
      | nil => simp [lcs]
      | cons x xs =>
        rw [lcs_cons_cons]
        split
        · rename_i hxc
          subst hxc
          have hB := (ih xs b (by simp at hab ⊢; omega)).2 x
          exact hB
        · exact le_max_left _ _
    · intro x
      cases b with
      | nil => simp [lcs, lcsStep]
      | cons y ys =>
        rw [lcs_cons_cons]
        split
        · rename_i hxy
          subst hxy
          have hA := (ih a ys (by simp at hab ⊢; omega)).1 x
          omega
        · rename_i hxy
          have h1 : lcs (x :: a) ys ≤ lcs a ys + 1 :=
            (ih a ys (by simp at hab ⊢; omega)).2 x
          have h2 : lcs a ys ≤ lcs a (y :: ys) :=
            (ih a ys (by simp at hab ⊢; omega)).1 y
          exact max_le (by omega) (by omega)

theorem lcs_le_cons_right (a b : List Char) (c : Char) : lcs a b ≤ lcs a (c :: b) :=
  (lcs_mono_aux (a.length + b.length) a b le_rfl).1 c

/-- If `lcs · b' ≤ lcs · b` pointwise then the same holds after consing the
same character on both second arguments. -/
theorem lcs_mono_cons₂ {b' b : List Char} (h : ∀ a, lcs a b' ≤ lcs a b) (c : Char) :
    ∀ a, lcs a (c :: b') ≤ lcs a (c :: b) := by
  intro a
  induction a with
  | nil => simp [lcs]
  | cons x xs ih =>
    rw [lcs_cons_cons, lcs_cons_cons]
    split
    · simpa [Nat.succ_le_succ_iff] using h xs
    · exact max_le (le_max_of_le_left (h (x :: xs))) (le_max_of_le_right ih)

/-- LCS is monotone when the second string shrinks to a sublist. -/
theorem lcs_sublist_right {b' b : List Char} (h : b'.Sublist b) :
    ∀ a, lcs a b' ≤ lcs a b := by
  induction h with
  | slnil => intro a; exact le_rfl
  | cons c _ ih => intro a; exact (ih a).trans (lcs_le_cons_right a _ c)
  | cons₂ c _ ih => exact lcs_mono_cons₂ ih c

/-- A common subsequence uses each character at most as often as it occurs
in both strings, so the LCS is bounded by the multiset intersection. -/
theorem lcs_le_interCard :
    ∀ (n : Nat) (a b : List Char), a.length + b.length ≤ n →
      lcs a b ≤ Multiset.card ((a : Multiset Char) ∩ (b : Multiset Char)) := by
  intro n
  induction n with
  | zero =>
    intro a b hab
    have ha : a = [] := by cases a <;> simp_all
    subst ha; simp [lcs]
  | succ n ih =>
    intro a b hab
    cases a with
    | nil => simp [lcs]
    | cons x xs =>
      cases b with
      | nil => simp [lcs, lcsStep]
      | cons y ys =>
        rw [lcs_cons_cons]
        split
        · rename_i hxy
          subst hxy
          have hIH := ih xs ys (by simp at hab ⊢; omega)
          have hle : (x ::ₘ ((xs : Multiset Char) ∩ (ys : Multiset Char))) ≤
              ((x :: xs : List Char) : Multiset Char) ∩ ((x :: ys : List Char) : Multiset Char) := by
            simp only [← Multiset.inf_eq_inter]
            apply le_inf
            · rw [← Multiset.cons_coe]
              exact Multiset.cons_le_cons x inf_le_left
            · rw [← Multiset.cons_coe]
              exact Multiset.cons_le_cons x inf_le_right
          have := Multiset.card_le_card hle
          simp only [Multiset.card_cons] at this
          omega
        · apply max_le
          · have h1 := ih (x :: xs) ys (by simp at hab ⊢; omega)
            refine h1.trans (Multiset.card_le_card ?_)
            simp only [← Multiset.inf_eq_inter]
            apply inf_le_inf_left
            rw [← Multiset.cons_coe]
            exact Multiset.le_cons_self _ y
          · have h2 := ih xs (y :: ys) (by simp at hab ⊢; omega)
            refine h2.trans (Multiset.card_le_card ?_)
            simp only [← Multiset.inf_eq_inter]
            apply inf_le_inf_right
            rw [← Multiset.cons_coe]
            exact Multiset.le_cons_self _ x

theorem lcs_le_capLcs (a b : List Char) : lcs a b ≤ capLcs a b :=
  lcs_le_interCard (a.length + b.length) a b le_rfl

/-- `capLcs` is monotone in sublists of the second argument. -/
theorem capLcs_sublist_right {b' b : List Char} (h : b'.Sublist b) (a : List Char) :
    capLcs a b' ≤ capLcs a b := by
  show Multiset.card ((a : Multiset Char) ∩ (b' : Multiset Char)) ≤
    Multiset.card ((a : Multiset Char) ∩ (b : Multiset Char))
  simp only [← Multiset.inf_eq_inter]
  exact Multiset.card_le_card (inf_le_inf_left _ (Multiset.coe_le.mpr h.subperm))

theorem ratioQ_nonneg (a b : List Char) : 0 ≤ ratioQ a b := by
  unfold ratioQ
  split
  · norm_num
  · positivity

theorem ratioQ_le_100 (a b : List Char) : ratioQ a b ≤ 100 := by
  unfold ratioQ
  split
  · exact le_rfl
  · rename_i h
    rw [div_le_iff₀ (by positivity)]
    have h1 := lcs_le_left a b
    have h2 := lcs_le_right a b
    have : (200 : ℚ) * lcs a b ≤ 100 * ((a.length + b.length : Nat) : ℚ) := by
      have : 2 * lcs a b ≤ a.length + b.length := by omega
      calc (200 : ℚ) * lcs a b = 100 * ((2 * lcs a b : Nat) : ℚ) := by push_cast; ring
        _ ≤ 100 * ((a.length + b.length : Nat) : ℚ) := by
            apply mul_le_mul_of_nonneg_left _ (by norm_num)
            exact_mod_cast this
    linarith

theorem ratioQ_le_70_of {a b : List Char}
    (hlen : a.length + b.length ≠ 0)
    (h : 20 * lcs a b ≤ 7 * (a.length + b.length)) : ratioQ a b ≤ 70 := by
  unfold ratioQ
  rw [if_neg hlen]
  rw [div_le_iff₀ (by positivity)]
  have : (10 : ℚ) * ((20 * lcs a b : Nat) : ℚ) ≤ 10 * ((7 * (a.length + b.length) : Nat) : ℚ) := by
    apply mul_le_mul_of_nonneg_left _ (by norm_num)
    exact_mod_cast h
  push_cast at this ⊢
  linarith

theorem subSegs_sublist {t w : List Char} (h : w ∈ subSegs t) : w.Sublist t := by
  unfold subSegs at h
  simp only [List.mem_flatMap, List.mem_map, List.mem_range] at h
  obtain ⟨i, _, n, _, rfl⟩ := h
  exact (List.take_sublist n _).trans (List.drop_sublist i t)

theorem foldl_max_le {c : ℚ} :
    ∀ (l : List ℚ) (init : ℚ), init ≤ c → (∀ x ∈ l, x ≤ c) → l.foldl max init ≤ c := by
  intro l
  induction l with
  | nil => intro init h _; simpa using h
  | cons x xs ih =>
    intro init h hall
    simp only [List.foldl_cons]
    exact ih _ (max_le h (hall x (by simp))) fun y hy => hall y (by simp [hy])

theorem le_foldl_max : ∀ (l : List ℚ) (init : ℚ), init ≤ l.foldl max init := by
  intro l
  induction l with
  | nil => intro init; simp
  | cons x xs ih =>
    intro init
    simp only [List.foldl_cons]
    exact (le_max_left init x).trans (ih (max init x))

theorem partialRatioQ_nonneg (a b : String) : 0 ≤ partialRatioQ a b :=
  le_foldl_max _ 0

theorem partialRatioQ_le_100 (a b : String) : partialRatioQ a b ≤ 100 := by
  unfold partialRatioQ
  apply foldl_max_le _ _ (by norm_num)
  intro x hx
  simp only [List.mem_map] at hx
  obtain ⟨w, _, rfl⟩ := hx
  exact ratioQ_le_100 _ _

theorem token_set_ratio_nonneg (a b : String) : 0 ≤ token_set_ratio a b :=
  le_max_of_le_left (ratioQ_nonneg _ _)

theorem token_set_ratio_le_100 (a b : String) : token_set_ratio a b ≤ 100 :=
  max_le (ratioQ_le_100 _ _) (max_le (ratioQ_le_100 _ _) (ratioQ_le_100 _ _))

/-- Every elective produced by `recommend_electives` carries a score in
`[0, 1]` (a 0–100 fuzzy ratio divided by 100). -/
theorem recommend_electives_score_bound (background : String) (program : Program)
    (top_k : Nat) :
    ∀ e ∈ recommend_electives background program top_k, 0 ≤ e.score ∧ e.score ≤ 1 := by
  intro e he
  by_cases h : extract_course_names program = []
  · simp [recommend_electives, h] at he
  · simp only [recommend_electives] at he
    rw [if_neg h] at he
    have he2 : e ∈ isortLe electiveLe _ := List.mem_of_mem_take he
    rw [mem_isortLe] at he2
    simp only [List.mem_map] at he2
    obtain ⟨nm, _, rfl⟩ := he2
    constructor
    · apply div_nonneg _ (by norm_num)
      exact le_max_of_le_left (partialRatioQ_nonneg _ _)
    · rw [div_le_one (by norm_num)]
      exact max_le (partialRatioQ_le_100 _ _) ((token_set_ratio_le_100 _ _).trans (by norm_num))

/-! ### Helper lemmas on the string primitives -/

theorem str_mk_ne_empty {l : List Char} (h : l ≠ []) : (⟨l⟩ : String) ≠ "" := by
  intro hc
  apply h
  simpa using congrArg String.data hc

theorem append_ne_empty_left {a : String} (b : String) (h : a ≠ "") : a ++ b ≠ "" := by
  intro hc
  apply h
  have hd := congrArg String.data hc
  rw [String.data_append] at hd
  have : a.data = [] ∧ b.data = [] := List.append_eq_nil.mp (by simpa using hd)
  cases a
  simp_all

theorem length_splitChD (sep : Char) : ∀ l : List Char,
    (splitChD sep l).length = l.count sep + 1 := by
  intro l
  induction l with
  | nil => simp [splitChD]
  | cons c cs ih =>
    simp only [splitChD]
    split
    · rename_i hc
      simp [List.count_cons, hc, ih]
    · rename_i hc
      have hne : splitChD sep cs ≠ [] := by
        intro hnil
        rw [hnil] at ih
        simp at ih
      obtain ⟨p, ps, hps⟩ := List.exists_cons_of_ne_nil hne
      rw [hps]
      rw [hps] at ih
      simp only [List.length_cons] at ih ⊢
      have : (c == sep) = false := by simpa using hc
      simp [List.count_cons, this]
      omega

theorem splitChD_ne_nil (sep : Char) (l : List Char) : splitChD sep l ≠ [] := by
  intro hnil
  have := length_splitChD sep l
  rw [hnil] at this
  simp at this

theorem count_splitChD_piece (sep : Char) :
    ∀ (l : List Char), ∀ p ∈ splitChD sep l, p.count sep = 0 := by
  intro l
  induction l with
  | nil =>
    intro p hp
    simp [splitChD] at hp
    simp [hp]
  | cons c cs ih =>
    intro p hp
    simp only [splitChD] at hp
    split at hp
    · rcases List.mem_cons.mp hp with rfl | hp
      · simp
      · exact ih p hp
    · rename_i hc
      obtain ⟨q, qs, hqs⟩ := List.exists_cons_of_ne_nil (splitChD_ne_nil sep cs)
      rw [hqs] at hp
      rcases List.mem_cons.mp hp with rfl | hp
      · have hq : q.count sep = 0 := ih q (by rw [hqs]; simp)
        have : (c == sep) = false := by simpa using hc
        simp [List.count_cons, this, hq]
      · exact ih p (by rw [hqs]; simp [hp])

theorem count_stripD_le (c : Char) (l : List Char) : (stripD l).count c ≤ l.count c := by
  unfold stripD
  calc ((l.dropWhile Char.isWhitespace).reverse.dropWhile Char.isWhitespace).reverse.count c
      = ((l.dropWhile Char.isWhitespace).reverse.dropWhile Char.isWhitespace).count c := by
        rw [List.count_reverse]
    _ ≤ (l.dropWhile Char.isWhitespace).reverse.count c :=
        (List.dropWhile_sublist _).count_le c
    _ = (l.dropWhile Char.isWhitespace).count c := by rw [List.count_reverse]
    _ ≤ l.count c := (List.dropWhile_sublist _).count_le c

theorem leadEq_dot_ne_nil {l : List Char} (h : leadEq l ['.'] = true) : l ≠ [] := by
  intro hnil
  subst hnil
  simp [leadEq] at h

theorem data_ne_nil_of_ne_empty {s : String} (h : s ≠ "") : s.data ≠ [] := by
  intro hd
  apply h
  apply String.ext
  rw [hd]

theorem find_facts_mem_ne_empty {docs : List Doc} {f : String}
    (h : f ∈ find_facts docs) : f ≠ "" := by
  unfold find_facts at h
  simp only [List.mem_filterMap] at h
  obtain ⟨d, _, hd⟩ := h
  split at hd
  · rename_i hcond
    cases hd
    exact hcond.2
  · exact absurd hd (by simp)

theorem cost_answer_some_ne {q : String} {docs : List Doc} {tt tu : Option String}
    {s : String} (h : cost_answer q docs tt tu = some s) : s ≠ "" := by
  simp only [cost_answer] at h
  split at h
  · split at h
    · rename_i fact_line hfl
      split at h
      · cases h
        repeat apply append_ne_empty_left
        decide
      · split at h
        · cases h
          repeat apply append_ne_empty_left
          decide
        · cases h
          exact find_facts_mem_ne_empty (List.mem_of_find?_eq_some hfl)
    · exact absurd h (by simp)
  · exact absurd h (by simp)

theorem teacher_answer_some_ne {q : String} {docs : List Doc} {tt tu : Option String}
    {s : String} (h : teacher_answer q docs tt tu = some s) : s ≠ "" := by
  simp only [teacher_answer] at h
  split at h
  · split at h
    · exact absurd h (by simp)
    · split at h
      · cases h
        repeat apply append_ne_empty_left
        decide
      · split at h
        · cases h
          repeat apply append_ne_empty_left
          decide
        · cases h
          repeat apply append_ne_empty_left
          decide
  · exact absurd h (by simp)

theorem course_answer_some_ne {docs : List Doc} {tt tu : Option String}
    {s : String} (h : course_answer docs tt tu = some s) : s ≠ "" := by
  simp only [course_answer] at h
  split at h
  · exact absurd h (by simp)
  · split at h
    · cases h
      repeat apply append_ne_empty_left
      decide
    · split at h
      · cases h
        repeat apply append_ne_empty_left
        decide
      · cases h
        repeat apply append_ne_empty_left
        decide

theorem fold_lines_ne :
    ∀ (l : List ScoredDoc) (acc : List String), (∀ s ∈ acc, s ≠ "") →
      ∀ s ∈ l.foldl
        (fun lines p =>
          let snippet := strip p.1.text
          if snippet = "" ∨ snippet ∈ lines then lines else lines ++ [snippet]) acc,
        s ≠ "" := by
  intro l
  induction l with
  | nil => intro acc hacc s hs; exact hacc s hs
  | cons p ps ih =>
    intro acc hacc s hs
    simp only [List.foldl_cons] at hs
    refine ih _ ?_ s hs
    intro t ht
    by_cases hcond : strip p.1.text = "" ∨ strip p.1.text ∈ acc
    · rw [if_pos hcond] at ht
      exact hacc t ht
    · rw [if_neg hcond] at ht
      rcases List.mem_append.mp ht with ht | ht
      · exact hacc t ht
      · rcases List.mem_singleton.mp ht with rfl
        intro hteq
        exact hcond (Or.inl hteq)

theorem generic_lines_mem_ne {retrieved : List ScoredDoc} {s : String}
    (h : s ∈ generic_lines retrieved) : s ≠ "" :=
  fold_lines_ne _ [] (by simp) s h

theorem build_answer_case_empty (q : String) : build_answer q [] = NO_RESULT_MSG := rfl

/-- C1: for every query string and every list of scored documents,
`build_answer` returns a non-empty string (the shallow embedding is total,
so no exception can be raised), and on an empty candidate list it returns
the explicit "no answer found" sentence. -/
theorem build_answer_never_empty (q : String) (retrieved : List ScoredDoc) :
    build_answer q retrieved ≠ "" ∧
      (retrieved = [] → build_answer q retrieved = NO_RESULT_MSG) := by
  by_cases hr : retrieved = []
  · subst hr
    rw [build_answer_case_empty]
    exact ⟨by decide, fun _ => rfl⟩
  · refine ⟨?_, fun hc => absurd hc hr⟩
    simp only [build_answer]
    rw [if_neg hr]
    split
    · rename_i s hs
      exact cost_answer_some_ne hs
    split
    · rename_i s hs
      exact teacher_answer_some_ne hs
    split
    · rename_i s hs
      exact course_answer_some_ne hs
    by_cases hl : generic_lines retrieved = []
    · rw [if_pos hl]
      decide
    · rw [if_neg hl]
      have hbody :
          (if 2 ≤ (generic_lines retrieved).length then
            (⟨joinD [' '] (((generic_lines retrieved).take 2).map String.data)⟩ : String)
          else (generic_lines retrieved).headD "") ≠ "" := by
        by_cases h2 : 2 ≤ (generic_lines retrieved).length
        · rw [if_pos h2]
          obtain ⟨l0, t0, h0⟩ := List.exists_cons_of_ne_nil hl
          have ht0 : t0 ≠ [] := by
            intro hh
            rw [h0, hh] at h2
            simp at h2
          obtain ⟨l1, t1, h1⟩ := List.exists_cons_of_ne_nil ht0
          have htake : (generic_lines retrieved).take 2 = [l0, l1] := by
            rw [h0, h1]; rfl
          rw [htake]
          apply str_mk_ne_empty
          have hl0 : l0 ≠ "" := generic_lines_mem_ne (by rw [h0]; simp)
          have hd0 : l0.data ≠ [] := data_ne_nil_of_ne_empty hl0
          simp only [List.map_cons, List.map_nil, joinD]
          intro hcon
          rcases List.append_eq_nil.mp hcon with ⟨hcon1, _⟩
          rcases List.append_eq_nil.mp hcon1 with ⟨hcon2, _⟩
          exact hd0 hcon2
        · rw [if_neg h2]
          obtain ⟨l0, t0, h0⟩ := List.exists_cons_of_ne_nil hl
          have hl0 : l0 ≠ "" := generic_lines_mem_ne (by rw [h0]; simp)
          rw [h0]
          simpa using hl0
      split
      · repeat apply append_ne_empty_left
        decide
      split
      · repeat apply append_ne_empty_left
        decide
      · exact hbody

/-- Witness for C1 at a concrete input. -/
theorem build_answer_never_empty_witness :
    build_answer "тест" [] ≠ "" ∧ build_answer "тест" [] = NO_RESULT_MSG :=
  ⟨(build_answer_never_empty "тест" []).1, (build_answer_never_empty "тест" []).2 rfl⟩

/-- C9: for every decoded model output, the `generate` post-processor
returns a non-empty string with at most two sentences (at most two `'.'`
characters): the text after the final answer marker is truncated to two
period-separated parts with the trailing period restored, and an empty
result is replaced by the canned "no answer" sentence. -/
theorem generate_post_short_nonempty (s : String) :
    generate_post s ≠ "" ∧ (generate_post s).data.count '.' ≤ 2 := by
  simp only [generate_post]
  set ans := strip (after_last_marker "Ответ:" s) with hans
  set parts := splitChD '.' ans.data with hparts
  set j := stripD (joinD ['.'] (parts.take 2)) with hj
  by_cases hlen : 2 < parts.length
  · rw [if_pos hlen]
    have hcj : j.count '.' ≤ 1 := by
      obtain ⟨p0, t0, h0⟩ := List.exists_cons_of_ne_nil (splitChD_ne_nil '.' ans.data)
      have ht0 : t0 ≠ [] := by
        intro hh
        rw [← hparts] at h0
        rw [h0, hh] at hlen
        simp at hlen
      obtain ⟨p1, t1, h1⟩ := List.exists_cons_of_ne_nil ht0
      have hp : parts = p0 :: p1 :: t1 := by rw [hparts, h0, h1]
      have hp0 : p0.count '.' = 0 := by
        apply count_splitChD_piece '.' ans.data
        rw [← hparts, hp]; simp
      have hp1 : p1.count '.' = 0 := by
        apply count_splitChD_piece '.' ans.data
        rw [← hparts, hp]; simp
      have htake : parts.take 2 = [p0, p1] := by rw [hp]; rfl
      have hjoin : joinD ['.'] (parts.take 2) = p0 ++ ['.'] ++ p1 := by
        rw [htake]; simp [joinD]
      calc j.count '.' ≤ (joinD ['.'] (parts.take 2)).count '.' := by
            rw [hj]; exact count_stripD_le _ _
        _ = 1 := by rw [hjoin]; simp [List.count_append, hp0, hp1]
    by_cases hdot : leadEq j.reverse ['.']
    · rw [if_pos hdot]
      have hjne : j ≠ [] := by
        intro hh
        rw [hh] at hdot
        simp [leadEq] at hdot
      have hne : (⟨j⟩ : String) ≠ "" := str_mk_ne_empty hjne
      rw [if_neg hne]
      exact ⟨hne, hcj.trans (by norm_num)⟩
    · rw [if_neg hdot]
      have hne : (⟨j ++ ['.']⟩ : String) ≠ "" := by
        apply str_mk_ne_empty
        simp
      rw [if_neg hne]
      refine ⟨hne, ?_⟩
      show (j ++ ['.']).count '.' ≤ 2
      rw [List.count_append]
      have h1 : (['.'] : List Char).count '.' = 1 := by decide
      omega
  · rw [if_neg hlen]
    have hcnt : ans.data.count '.' ≤ 1 := by
      have := length_splitChD '.' ans.data
      rw [← hparts] at this
      omega
    by_cases hempty : ans = ""
    · rw [if_pos hempty]
      refine ⟨by decide, by decide⟩
    · rw [if_neg hempty]
      exact ⟨hempty, hcnt.trans (by norm_num)⟩

/-- Witness for C9 at a concrete decoded output. -/
theorem generate_post_short_nonempty_witness :
    generate_post "Ответ: Раз. Два. Три." ≠ "" ∧
      (generate_post "Ответ: Раз. Два. Три.").data.count '.' ≤ 2 :=
  generate_post_short_nonempty "Ответ: Раз. Два. Три."

theorem electiveLe_trans (a b c : Elective) (hab : electiveLe a b = true)
    (hbc : electiveLe b c = true) : electiveLe a c = true := by
  simp only [electiveLe, decide_eq_true_eq] at *
  exact hbc.trans hab

theorem electiveLe_total (a b : Elective) : electiveLe a b || electiveLe b a := by
  simp only [electiveLe]
  rcases le_total b.score a.score with h | h <;> simp [h]

/-- C3: `recommend_electives` returns at most `top_k` electives, sorted by
score in non-increasing order, with every score in `[0, 1]`. -/
theorem recommend_electives_contract (background : String) (program : Program) (top_k : Nat) :
    (recommend_electives background program top_k).length ≤ top_k ∧
    (recommend_electives background program top_k).Pairwise
      (fun a b => b.score ≤ a.score) ∧
    ∀ e ∈ recommend_electives background program top_k, 0 ≤ e.score ∧ e.score ≤ 1 := by
  refine ⟨?_, ?_, recommend_electives_score_bound background program top_k⟩
  · by_cases h : extract_course_names program = []
    · simp [recommend_electives, h]
    · simp only [recommend_electives]
      rw [if_neg h]
      rw [List.length_take]
      omega
  · by_cases h : extract_course_names program = []
    · simp [recommend_electives, h]
    · simp only [recommend_electives]
      rw [if_neg h]
      apply List.Pairwise.sublist (List.take_sublist _ _)
      have hp := pairwise_isortLe electiveLe_trans electiveLe_total
        ((extract_course_names program).map fun name =>
          { name := name
            score := max (partialRatioQ (strip (lowerS background)) (lowerS name))
                (token_set_ratio (strip (lowerS background)) (lowerS name)) / 100 : Elective })
      exact hp.imp fun hab => by
        simpa [electiveLe] using hab

/-- C10: the aggregate returned by `score_program` lies in `[0, 1]`: it is
`0` for an empty elective list and otherwise the mean of elective scores,
each of which is a 0–100 fuzzy ratio divided by 100. -/
theorem score_program_aggregate_in_unit_interval (background : String) (program : Program) (top_k : Nat) :
    0 ≤ (score_program background program top_k).1 ∧
      (score_program background program top_k).1 ≤ 1 := by
  by_cases h : recommend_electives background program top_k = []
  · simp [score_program, h]
  · have hsp : score_program background program top_k =
        (((recommend_electives background program top_k).map Elective.score).sum /
          ((recommend_electives background program top_k).length : ℚ),
          recommend_electives background program top_k) := by
      simp only [score_program]
      rw [if_neg h]
    rw [hsp]
    have hb := recommend_electives_score_bound background program top_k
    have hlenpos : 0 < (recommend_electives background program top_k).length :=
      List.length_pos.mpr h
    have hlenQ : (0 : ℚ) < ((recommend_electives background program top_k).length : ℚ) := by
      exact_mod_cast hlenpos
    constructor
    · apply div_nonneg _ hlenQ.le
      apply List.sum_nonneg
      intro x hx
      obtain ⟨e, he, rfl⟩ := List.mem_map.mp hx
      exact (hb e he).1
    · rw [div_le_one hlenQ]
      have hsum : ((recommend_electives background program top_k).map Elective.score).sum ≤
          ((recommend_electives background program top_k).map Elective.score).length • (1 : ℚ) := by
        apply List.sum_le_card_nsmul
        intro x hx
        obtain ⟨e, he, rfl⟩ := List.mem_map.mp hx
        exact (hb e he).2
      rw [List.length_map] at hsum
      simpa using hsum

/-- Counterexample to C4 as stated: with `top_k = 0` and a curriculum with
one surviving (non-heading) course, `score_program` still returns
`(0.0, [])`, so the claimed equivalence fails for every `top_k`. -/
theorem score_program_topk_zero_counterexample :
    score_program "анализ" exProgram 0 = (0, []) ∧ extract_course_names exProgram ≠ [] := by
  constructor
  · decide
  · decide

/-- C4 (amended): for every `top_k ≥ 1`, `score_program` returns exactly
`(0.0, [])` iff the program's curriculum has no non-heading entry surviving
the filter; otherwise the aggregate is the arithmetic mean of the returned
electives' scores. -/
theorem score_program_zero_iff (bg : String) (prog : Program) (k : Nat) (hk : 1 ≤ k) :
    (score_program bg prog k = (0, []) ↔ extract_course_names prog = []) ∧
    (extract_course_names prog ≠ [] →
      (score_program bg prog k).2 ≠ [] ∧
      (score_program bg prog k).1 =
        (((score_program bg prog k).2.map Elective.score).sum /
          (((score_program bg prog k).2.length : ℚ)))) := by
  by_cases h : extract_course_names prog = []
  · have hre : recommend_electives bg prog k = [] := by simp [recommend_electives, h]
    have hsp : score_program bg prog k = (0, []) := by simp [score_program, hre]
    exact ⟨by simp [hsp, h], fun hc => absurd h hc⟩
  · have hre : recommend_electives bg prog k ≠ [] := by
      simp only [recommend_electives]
      rw [if_neg h]
      intro hnil
      have hlen := congrArg List.length hnil
      rw [List.length_take] at hlen
      have hperm := (@perm_isortLe Elective electiveLe
        ((extract_course_names prog).map fun name =>
          { name := name
            score := max (partialRatioQ (strip (lowerS bg)) (lowerS name))
                (token_set_ratio (strip (lowerS bg)) (lowerS name)) / 100 : Elective })).length_eq
      rw [hperm] at hlen
      rw [List.length_map] at hlen
      have : 0 < (extract_course_names prog).length := List.length_pos.mpr h
      simp only [List.length_nil] at hlen
      omega
    have hsp : score_program bg prog k =
        (((recommend_electives bg prog k).map Elective.score).sum /
          ((recommend_electives bg prog k).length : ℚ), recommend_electives bg prog k) := by
      simp only [score_program]
      rw [if_neg hre]
    constructor
    · rw [hsp]
      constructor
      · intro hcontra
        exact absurd (congrArg Prod.snd hcontra) hre
      · intro hc
        exact absurd hc h
    · intro _
      rw [hsp]
      exact ⟨hre, rfl⟩

theorem pairLe_trans (prog_name : String) (a b c : ScoredDoc)
    (hab : pairLe prog_name a b = true) (hbc : pairLe prog_name b c = true) :
    pairLe prog_name a c = true := by
  simp only [pairLe, decide_eq_true_eq] at *
  rcases hab with h1 | ⟨h1, h1'⟩ <;> rcases hbc with h2 | ⟨h2, h2'⟩
  · exact Or.inl (h2.trans h1)
  · exact Or.inl (by omega)
  · exact Or.inl (by omega)
  · exact Or.inr ⟨by omega, h2'.trans h1'⟩

theorem pairLe_total (prog_name : String) (a b : ScoredDoc) :
    pairLe prog_name a b || pairLe prog_name b a := by
  simp only [pairLe]
  rcases Nat.lt_trichotomy (prog_score prog_name a) (prog_score prog_name b) with h | h | h
  · simp [h]
  · rcases le_total b.2 a.2 with hs | hs <;> simp [h, hs]
  · simp [h]

/-- C5: after the caller's two-key re-ranking sort, every document of the
selected program sorts before every document of another program regardless
of similarity (the program-match key is non-increasing along the output);
in particular a selected-program document with similarity `0.4 = 2/5` sorts
before an other-program document with similarity `0.9 = 9/10`. -/
theorem rank_pairs_program_first (prog_name : String) (pairs : List ScoredDoc) :
    (rank_pairs prog_name pairs).Pairwise
      (fun p q => prog_score prog_name q ≤ prog_score prog_name p) ∧
    rank_pairs "ИИ" [(exDocOther, mkRat 9 10), (exDocSel, mkRat 2 5)] =
      [(exDocSel, mkRat 2 5), (exDocOther, mkRat 9 10)] := by
  constructor
  · have hp := pairwise_isortLe (pairLe_trans prog_name) (pairLe_total prog_name) pairs
    exact hp.imp fun hab => by
      have h := of_decide_eq_true hab
      rcases h with h | ⟨h, _⟩
      · omega
      · omega
  · decide

/-- Witness for C3 at a concrete input. -/
theorem recommend_electives_contract_witness :
    (recommend_electives "анализ" exProgram 2).length ≤ 2 ∧
    (recommend_electives "анализ" exProgram 2).Pairwise (fun a b => b.score ≤ a.score) ∧
    ∀ e ∈ recommend_electives "анализ" exProgram 2, 0 ≤ e.score ∧ e.score ≤ 1 :=
  recommend_electives_contract "анализ" exProgram 2

/-- Witness for C10 at a concrete input. -/
theorem score_program_aggregate_in_unit_interval_witness :
    0 ≤ (score_program "анализ" exProgram 1).1 ∧ (score_program "анализ" exProgram 1).1 ≤ 1 :=
  score_program_aggregate_in_unit_interval "анализ" exProgram 1

/-- Witness for the amended C4 at a concrete input with `top_k = 1`. -/
theorem score_program_zero_iff_witness :
    (score_program "анализ" exProgram 1 = (0, []) ↔ extract_course_names exProgram = []) ∧
    (extract_course_names exProgram ≠ [] →
      (score_program "анализ" exProgram 1).2 ≠ [] ∧
      (score_program "анализ" exProgram 1).1 =
        (((score_program "анализ" exProgram 1).2.map Elective.score).sum /
          (((score_program "анализ" exProgram 1).2.length : ℚ)))) :=
  score_program_zero_iff "анализ" exProgram 1 (by decide)

/-- Witness for C5 at a concrete input. -/
theorem rank_pairs_program_first_witness :
    (rank_pairs "ИИ" []).Pairwise (fun p q => prog_score "ИИ" q ≤ prog_score "ИИ" p) ∧
    rank_pairs "ИИ" [(exDocOther, mkRat 9 10), (exDocSel, mkRat 2 5)] =
      [(exDocSel, mkRat 2 5), (exDocOther, mkRat 9 10)] :=
  rank_pairs_program_first "ИИ" []

/-- C6: for every cost-intent query, when a "facts"-section document of the
selected program exists and is not already among the re-ranked results, it
is prepended with the artificial maximal score `1.0`, so it is the head of
the candidate list and survives the truncation to the top 5. -/
theorem router_candidates_injects_facts (text prog_name : String) (all_docs : List Doc)
    (pairs : List ScoredDoc) (fd : Doc)
    (hcost : handlers_cost_intent text = true)
    (hfind : find_fact_doc all_docs prog_name = some fd)
    (hnot : ∀ p ∈ rank_pairs prog_name pairs, p.1 ≠ fd) :
    router_candidates text prog_name all_docs pairs =
      (fd, 1) :: (rank_pairs prog_name pairs).take 4 ∧
    (fd, (1 : ℚ)) ∈ router_candidates text prog_name all_docs pairs := by
  have hinj : inject_facts text prog_name all_docs (rank_pairs prog_name pairs) =
      (fd, 1) :: rank_pairs prog_name pairs := by
    unfold inject_facts
    rw [hcost, hfind]
    simp only [if_true]
    rw [if_pos]
    rw [List.all_eq_true]
    intro p hp
    simpa using hnot p hp
  have hmain : router_candidates text prog_name all_docs pairs =
      (fd, 1) :: (rank_pairs prog_name pairs).take 4 := by
    unfold router_candidates
    rw [hinj]
    rfl
  exact ⟨hmain, by rw [hmain]; simp⟩

theorem ccnGo_length : ∀ (ds : List Doc) (acc : List String) (limit : Nat),
    acc.length < limit → (ccnGo ds acc limit).length ≤ limit := by
  intro ds
  induction ds with
  | nil => intro acc limit h; simpa [ccnGo] using h.le
  | cons d rest ih =>
    intro acc limit h
    simp only [ccnGo]
    by_cases h1 : d.meta.sectionKey.getD "" ≠ "course"
    · rw [if_pos h1]; exact ih acc limit h
    · rw [if_neg h1]
      by_cases h2 : strip d.text = "" ∨ (strip d.text).length < 2
      · rw [if_pos h2]; exact ih acc limit h
      · rw [if_neg h2]
        by_cases h3 : (COURSE_SKIP_KEYWORDS.any fun hh => inS hh (lowerS (strip d.text))) = true
        · rw [if_pos h3]; exact ih acc limit h
        · rw [if_neg h3]
          by_cases hmem : strip d.text ∈ acc
          · rw [if_pos hmem]
            by_cases hlim : limit ≤ acc.length
            · omega
            · rw [if_neg hlim]; exact ih acc limit h
          · rw [if_neg hmem]
            by_cases hlim : limit ≤ (acc ++ [strip d.text]).length
            · rw [if_pos hlim]
              simp only [List.length_append, List.length_cons, List.length_nil]
              omega
            · rw [if_neg hlim]
              apply ih
              simp only [List.length_append, List.length_cons, List.length_nil] at hlim ⊢
              omega

theorem ccnGo_mem : ∀ (ds : List Doc) (acc : List String) (limit : Nat) (t : String),
    t ∈ ccnGo ds acc limit →
    t ∈ acc ∨ (2 ≤ t.length ∧
      (∀ kw ∈ COURSE_SKIP_KEYWORDS, inS kw (lowerS t) = false) ∧
      ∃ d ∈ ds, d.meta.sectionKey.getD "" = "course" ∧ t = strip d.text) := by
  intro ds
  induction ds with
  | nil => intro acc limit t ht; exact Or.inl ht
  | cons d rest ih =>
    intro acc limit t ht
    simp only [ccnGo] at ht
    have weaken : t ∈ acc ∨ (2 ≤ t.length ∧
        (∀ kw ∈ COURSE_SKIP_KEYWORDS, inS kw (lowerS t) = false) ∧
        ∃ d' ∈ rest, d'.meta.sectionKey.getD "" = "course" ∧ t = strip d'.text) →
        t ∈ acc ∨ (2 ≤ t.length ∧
        (∀ kw ∈ COURSE_SKIP_KEYWORDS, inS kw (lowerS t) = false) ∧
        ∃ d' ∈ d :: rest, d'.meta.sectionKey.getD "" = "course" ∧ t = strip d'.text) := by
      rintro (h | ⟨ha, hb, d', hd', hc⟩)
      · exact Or.inl h
      · exact Or.inr ⟨ha, hb, d', List.mem_cons_of_mem d hd', hc⟩
    by_cases h1 : d.meta.sectionKey.getD "" ≠ "course"
    · rw [if_pos h1] at ht
      exact weaken (ih acc limit t ht)
    · rw [if_neg h1] at ht
      push_neg at h1
      by_cases h2 : strip d.text = "" ∨ (strip d.text).length < 2
      · rw [if_pos h2] at ht
        exact weaken (ih acc limit t ht)
      · rw [if_neg h2] at ht
        by_cases h3 : (COURSE_SKIP_KEYWORDS.any fun hh => inS hh (lowerS (strip d.text))) = true
        · rw [if_pos h3] at ht
          exact weaken (ih acc limit t ht)
        · rw [if_neg h3] at ht
          push_neg at h2
          have hgood : 2 ≤ (strip d.text).length ∧
              (∀ kw ∈ COURSE_SKIP_KEYWORDS, inS kw (lowerS (strip d.text)) = false) := by
            constructor
            · omega
            · intro kw hkw
              by_contra hcon
              apply h3
              rw [List.any_eq_true]
              exact ⟨kw, hkw, by simpa using hcon⟩
          by_cases hmem : strip d.text ∈ acc
          · simp only [if_pos hmem] at ht
            by_cases hlim : limit ≤ acc.length
            · rw [if_pos hlim] at ht
              exact Or.inl ht
            · rw [if_neg hlim] at ht
              exact weaken (ih acc limit t ht)
          · simp only [if_neg hmem] at ht
            by_cases hlim : limit ≤ (acc ++ [strip d.text]).length
            · rw [if_pos hlim] at ht
              rcases List.mem_append.mp ht with h | h
              · exact Or.inl h
              · rcases List.mem_singleton.mp h with rfl
                exact Or.inr ⟨hgood.1, hgood.2, d, List.mem_cons_self d rest, h1, rfl⟩
            · rw [if_neg hlim] at ht
              rcases ih (acc ++ [strip d.text]) limit t ht with h | h
              · rcases List.mem_append.mp h with h' | h'
                · exact Or.inl h'
                · rcases List.mem_singleton.mp h' with rfl
                  exact Or.inr ⟨hgood.1, hgood.2, d, List.mem_cons_self d rest, h1, rfl⟩
              · exact weaken (Or.inr h)

/-- C7 (amended): the course-listing path collects at most 5 texts, and
every collected text is a stripped course-section document text of length at
least 2 that contains none of the five structural keywords
(`"учебный план"`, `"наименование модулей"`, `"блок 1"`,
`"обязательные дисциплины"`, `"пул выборных"`, case-insensitively).  Texts
that `_is_heading` classifies as headings only via its other rules (the
semester marker, the keywords `блок`/`обязательн`/`аттестац`/`практик`/the
individual-training phrase, or the 80-character rule) can still be listed. -/
theorem collect_course_names_filter (docs : List Doc) :
    (collect_course_names docs 5).length ≤ 5 ∧
    ∀ t ∈ collect_course_names docs 5,
      2 ≤ t.length ∧
      (∀ kw ∈ COURSE_SKIP_KEYWORDS, inS kw (lowerS t) = false) ∧
      ∃ d ∈ docs, d.meta.sectionKey.getD "" = "course" ∧ t = strip d.text := by
  constructor
  · exact ccnGo_length docs [] 5 (by norm_num)
  · intro t ht
    rcases ccnGo_mem docs [] 5 t ht with h | h
    · simp at h
    · exact h

/-- Counterexample to C7 as stated: the course-section text
`"Практика. 3 семестр"` is classified as a heading by the §4.5 filter
(`_is_heading`) yet is collected and listed by `build_answer`'s
course-listing path. -/
theorem collect_course_names_heading_counterexample :
    build_answer "вопрос" [(exHeadingDoc, 1)] =
      "Среди подходящих курсов: Практика. 3 семестр." ∧
    is_heading "Практика. 3 семестр" = true ∧
    "Практика. 3 семестр" ∈ collect_course_names [exHeadingDoc] 5 := by
  refine ⟨by decide, by decide, by decide⟩

/-- Counterexample to C8 as stated: a ranked set whose first three texts
coincide and whose second distinct non-empty text appears only at position
four produces an answer built from one text only, although the entire
ranked set contains two distinct non-empty texts. -/
theorem build_answer_generic_counterexample :
    build_answer "вопрос" exRetrieved = "Альфа" ∧
    2 ≤ (distinct_texts exRetrieved).length ∧
    inS "Бета" (build_answer "вопрос" exRetrieved) = false := by
  refine ⟨by decide, by decide, by decide⟩

/-- C8 (amended): the generic-path answer body is composed from up to the
first 2 distinct non-empty document texts of the FIRST THREE candidates of
the ranked set (first-seen order, duplicates by exact text removed): whenever
the first three candidates contain at least two distinct non-empty texts,
the body is exactly the first two joined by a space.  A distinct text that
occurs only after the first three candidates is not used. -/
theorem build_answer_generic_first_three (q : String) (retrieved : List ScoredDoc) (l0 l1 : String) (rest : List String)
    (hne : retrieved ≠ [])
    (hcost : looks_like_cost_question q = false)
    (hteach : looks_like_teacher_question q = false)
    (hcourse : collect_course_names ((retrieved.map Prod.fst).filter fun d => d.text ≠ "") 5 = [])
    (htitle : truthyO (extract_program_info
      ((retrieved.map Prod.fst).filter fun d => d.text ≠ "")).1 = false)
    (hdt : distinct_texts (retrieved.take 3) = l0 :: l1 :: rest) :
    build_answer q retrieved = l0 ++ " " ++ l1 := by
  have hgl : generic_lines retrieved = l0 :: l1 :: rest := hdt
  simp only [build_answer]
  rw [if_neg hne]
  set docs := (retrieved.map Prod.fst).filter (fun d => d.text ≠ "") with hdocs
  set ti := extract_program_info docs with hti
  have hca : cost_answer q docs ti.1 ti.2 = none := by
    simp [cost_answer, hcost]
  have hta : teacher_answer q docs ti.1 ti.2 = none := by
    simp [teacher_answer, hteach]
  have hcoa : course_answer docs ti.1 ti.2 = none := by
    simp [course_answer, hcourse]
  rw [hca, hta, hcoa]
  rw [hgl]
  rw [if_neg (by simp)]
  have h2 : 2 ≤ (l0 :: l1 :: rest).length := by simp
  rw [if_pos h2]
  have hcond1 : ¬(truthyO ti.1 = true ∧ truthyO ti.2 = true) := by
    intro hand
    rw [htitle] at hand
    exact absurd hand.1 (by simp)
  rw [if_neg hcond1]
  rw [if_neg (by rw [htitle]; simp)]
  show (⟨joinD [' '] (((l0 :: l1 :: rest).take 2).map String.data)⟩ : String) = l0 ++ " " ++ l1
  apply String.ext
  show joinD [' '] (((l0 :: l1 :: rest).take 2).map String.data) = (l0 ++ " " ++ l1).data
  rw [String.data_append, String.data_append]
  have htake : (l0 :: l1 :: rest).take 2 = [l0, l1] := rfl
  rw [htake]
  have hsp : (" " : String).data = [' '] := rfl
  rw [hsp]
  simp [joinD]

/-- Witness for C6 at a concrete input. -/
theorem router_candidates_injects_facts_witness :
    router_candidates "сколько стоит обучение" "ИИ" [exFactDoc] [] =
      (exFactDoc, 1) :: (rank_pairs "ИИ" []).take 4 ∧
    (exFactDoc, (1 : ℚ)) ∈ router_candidates "сколько стоит обучение" "ИИ" [exFactDoc] [] :=
  router_candidates_injects_facts "сколько стоит обучение" "ИИ" [exFactDoc] [] exFactDoc
    (by decide) (by decide) (by simp [rank_pairs, isortLe])

/-- Witness for the amended C7 at a concrete input. -/
theorem collect_course_names_filter_witness :
    (collect_course_names [exHeadingDoc] 5).length ≤ 5 ∧
    (2 ≤ ("Практика. 3 семестр" : String).length ∧
      (∀ kw ∈ COURSE_SKIP_KEYWORDS, inS kw (lowerS "Практика. 3 семестр") = false) ∧
      ∃ d ∈ [exHeadingDoc], d.meta.sectionKey.getD "" = "course" ∧
        "Практика. 3 семестр" = strip d.text) :=
  ⟨(collect_course_names_filter [exHeadingDoc]).1,
   (collect_course_names_filter [exHeadingDoc]).2 "Практика. 3 семестр" (by decide)⟩

/-- Witness for the amended C8 at a concrete input with two distinct texts
among the first three candidates. -/
theorem build_answer_generic_first_three_witness :
    build_answer "вопрос" exRetrieved2 = "Альфа" ++ " " ++ "Бета" :=
  build_answer_generic_first_three "вопрос" exRetrieved2 "Альфа" "Бета" []
    (by decide) (by decide) (by decide) (by decide) (by decide) (by decide)

theorem alias_windows_bound :
    ((subSegs aliasesD).all
      (fun w => w.length ≤ 11 || 33 ≤ w.length ||
        20 * capLcs qCostD w ≤ 7 * (22 + w.length))) = true := by decide

theorem alias_global_cap : capLcs qCostD aliasesD ≤ 19 := by decide

theorem alias_partial_le_70 :
    partialRatioQ aliases_joined (lowerS "сколько стоит обучение") ≤ 70 := by
  have ha : aliases_joined.data = aliasesD := by decide
  have hb : (lowerS "сколько стоит обучение").data = qCostD := by decide
  unfold partialRatioQ
  rw [ha, hb]
  have hcond : ¬(aliasesD.length ≤ qCostD.length) := by decide
  show ((subSegs (if aliasesD.length ≤ qCostD.length then (aliasesD, qCostD)
      else (qCostD, aliasesD)).2).map
    (ratioQ (if aliasesD.length ≤ qCostD.length then (aliasesD, qCostD)
      else (qCostD, aliasesD)).1)).foldl max 0 ≤ 70
  rw [if_neg hcond]
  apply foldl_max_le _ _ (by norm_num)
  intro x hx
  obtain ⟨w, hw, rfl⟩ := List.mem_map.mp hx
  have hsub : w.Sublist aliasesD := subSegs_sublist hw
  have hq22 : qCostD.length = 22 := by decide
  have hdisj := (List.all_eq_true.mp alias_windows_bound) w hw
  have hdisj2 : (w.length ≤ 11 ∨ 33 ≤ w.length) ∨
      20 * capLcs qCostD w ≤ 7 * (22 + w.length) := by
    simpa using hdisj
  have hlen0 : qCostD.length + w.length ≠ 0 := by rw [hq22]; omega
  apply ratioQ_le_70_of hlen0
  rw [hq22]
  rcases hdisj2 with (h | h) | h
  · have := lcs_le_right qCostD w
    omega
  · have hmono := lcs_sublist_right hsub qCostD
    have hcap := lcs_le_capLcs qCostD aliasesD
    have := alias_global_cap
    omega
  · have := lcs_le_capLcs qCostD w
    omega

theorem is_relevant_cost_aux :
    ∀ retrieved : List ScoredDoc, (∀ p ∈ retrieved, p.2 ≤ 3 / 20) →
      is_relevant "сколько стоит обучение" retrieved = false := by
  intro retrieved hr
  unfold is_relevant
  have h1 : rel_key_hit "сколько стоит обучение" = false := by decide
  have h2 : rel_alias_hit "сколько стоит обучение" = false := by
    unfold rel_alias_hit
    exact decide_eq_false (not_lt.mpr alias_partial_le_70)
  have h3 : rel_retr_hit retrieved = false := by
    unfold rel_retr_hit
    rw [List.any_eq_false]
    intro p hp
    simp only [decide_eq_true_eq]
    exact not_lt.mpr (hr p hp)
  rw [h1, h2, h3]
  rfl

/-- C2 (amended): `is_relevant` returns FALSE for the query
`"сколько стоит обучение"` whenever every supplied similarity is at most
the threshold `0.15` (so in particular for an empty retrieved list): no
vocabulary keyword is a substring of the query (`"стоит"` is not
`"стоимость"` or `"цена"`), the alias fuzzy score does not exceed 70, and
the retrieval-confidence signal cannot fire. -/
theorem is_relevant_cost_query_false (retrieved : List ScoredDoc)
    (h : ∀ p ∈ retrieved, p.2 ≤ 3 / 20) :
    is_relevant "сколько стоит обучение" retrieved = false :=
  is_relevant_cost_aux retrieved h

/-- Counterexample to C2 as stated: `is_relevant` returns false, not true,
for `"сколько стоит обучение"` with an empty retrieved list, and in
particular the keyword-hit signal does not fire on this query. -/
theorem is_relevant_cost_query_counterexample :
    is_relevant "сколько стоит обучение" [] = false ∧
    rel_key_hit "сколько стоит обучение" = false :=
  ⟨is_relevant_cost_aux [] (by simp), by decide⟩

/-- Witness for the amended C2 at the empty retrieved list. -/
theorem is_relevant_cost_query_false_witness :
    is_relevant "сколько стоит обучение" [] = false :=
  is_relevant_cost_query_false [] (by simp)
